import Mathlib

/-!
Verification of the diffguard core pipeline: a shallow embedding of the
diff parser (git.py), the region builder (context.py), the Python scope
resolver (ast/python.py, ast/scope.py) and the file reader, together with
proofs about them.  Python ints are modelled as Int, Python str as
List Char (with String wrappers at the edges), and code that can raise is
modelled in Option / Except.
-/

namespace Diffguard


/-- A contiguous range of lines in a source file, 1-indexed inclusive.
Mirrors the Region dataclass of context.py. -/
structure Region where
  start_line : Int
  end_line : Int
deriving DecidableEq, Repr

/-- A single hunk from a unified diff; mirrors DiffHunk of git.py.  The
lines field holds (tag, text) pairs, the tag being the leading character
of a diff body line: a space for context, a plus for an addition, a minus
for a removal. -/
structure DiffHunk where
  old_start : Int
  old_count : Int
  new_start : Int
  new_count : Int
  lines : List (Char × List Char) := []
deriving DecidableEq, Repr

/-- A single file's changes from a git diff; mirrors DiffFile of git.py. -/
structure DiffFile where
  old_path : List Char
  new_path : List Char
  hunks : List DiffHunk := []
  is_new_file : Bool := false
  is_deleted : Bool := false
  is_renamed : Bool := false
  is_binary : Bool := false
  mode_changed : Bool := false
deriving DecidableEq, Repr

/-- The path property of DiffFile: old_path for deletions, else new_path. -/
def DiffFile.path (f : DiffFile) : List Char :=
  if f.is_deleted then f.old_path else f.new_path

/-- expand_hunk from context.py: expand a diff hunk by N surrounding lines
into a Region, using new-file side line numbers, clamping the start to 1
and, when the file length is known, the end to that length. -/
def expand_hunk (hunk : DiffHunk) (expansion : Int) (file_length : Option Int := none) : Region :=
  let hunk_start := hunk.new_start
  let hunk_end := hunk.new_start + max hunk.new_count 1 - 1
  let start := max 1 (hunk_start - expansion)
  let stop :=
    match file_length with
    | some n => min n (hunk_end + expansion)
    | none => hunk_end + expansion
  { start_line := start, end_line := stop }

/-- Stable insertion into a list sorted ascending by start_line: the new
element goes before the first element whose start_line is ≥ its own, which
is exactly where Python's stable sorted() would leave it. -/
def sortedInsert (r : Region) : List Region → List Region
  | [] => [r]
  | s :: rest =>
    if r.start_line ≤ s.start_line then r :: s :: rest else s :: sortedInsert r rest

/-- Stable sort by start_line, modelling sorted(regions, key=lambda r: r.start_line). -/
def sortByStart (l : List Region) : List Region := l.foldr sortedInsert []

/-- The fold of merge_regions: cur is the region currently being grown
(the mutable merged[-1] of the Python code), done holds the finished
regions before it. -/
def mergeLoop : Region → List Region → List Region → List Region
  | cur, done, [] => done ++ [cur]
  | cur, done, r :: rest =>
    if r.start_line ≤ cur.end_line + 1 then
      mergeLoop { cur with end_line := max cur.end_line r.end_line } done rest
    else
      mergeLoop { start_line := r.start_line, end_line := r.end_line } (done ++ [cur]) rest

/-- Seed the fold with a copy of the first sorted region (sorted_regions[0])
and run it over the tail (sorted_regions[1:]). -/
def mergeAll : List Region → List Region
  | [] => []
  | r :: rest => mergeLoop { start_line := r.start_line, end_line := r.end_line } [] rest

/-- merge_regions from context.py: sort by start_line, then fold, merging a
region into the accumulated one whenever start_line ≤ accumulated end_line + 1.
Inputs of length ≤ 1 are returned as defensive copies. -/
def merge_regions (regions : List Region) : List Region :=
  if regions.length ≤ 1 then
    regions.map (fun r => { start_line := r.start_line, end_line := r.end_line })
  else
    mergeAll (sortByStart regions)

/-- build_file_regions from context.py: a new file gets one whole-file
region; a deleted, binary or hunk-less file gets none; otherwise expand
every hunk and merge. -/
def build_file_regions (diff_file : DiffFile) (file_length : Int) (expansion : Int) :
    List Region :=
  if diff_file.is_new_file then
    [{ start_line := 1, end_line := file_length }]
  else if diff_file.is_deleted || diff_file.is_binary || diff_file.hunks.isEmpty then
    []
  else
    merge_regions (diff_file.hunks.map (fun h => expand_hunk h expansion (some file_length)))

/-- Ordering of regions by start_line, the sort key of merge_regions. -/
def startLE (a b : Region) : Prop := a.start_line ≤ b.start_line

/-- Two regions separated by a gap of at least one full line. -/
def gapGE1 (a b : Region) : Prop := a.end_line + 1 < b.start_line

/-- A point x lies inside some region of the list. -/
def covOf (L : List Region) (x : Int) : Prop :=
  ∃ q ∈ L, q.start_line ≤ x ∧ x ≤ q.end_line

/-! ### The diff parser (git.py)

Python str is modelled as List Char; code that can raise ValueError is
modelled in Option (none = exception).  Python's str.isdigit also accepts
Unicode decimal digits beyond ASCII; the model restricts attention to the
ASCII digits, which is what every input below uses. -/

/-- Python str.startswith for char lists. -/
def startsWith (p l : List Char) : Bool := List.isPrefixOf p l

/-- Value of an ASCII digit character. -/
def digitVal (c : Char) : Nat := c.toNat - 48

/-- A digit that is also a valid octal digit, the condition of the octal
continuation loop in _parse_c_quoted. -/
def isOctDigit (c : Char) : Bool := c.isDigit && digitVal c < 8

/-- Python int(s, 8) on a nonempty digit string: some value when every
character is an octal digit, none (ValueError) otherwise. -/
def octValue (l : List Char) : Option Nat :=
  match l with
  | [] => none
  | _ => l.foldl (fun acc c => acc.bind fun a =>
      if isOctDigit c then some (a * 8 + digitVal c) else none) (some 0)

/-- The _C_ESCAPE_MAP dictionary of git.py. -/
def cEscape (c : Char) : Option Char :=
  match c with
  | '\\' => some '\\'
  | '"' => some '"'
  | 'n' => some '\n'
  | 't' => some '\t'
  | 'r' => some '\r'
  | 'a' => some (Char.ofNat 7)
  | 'b' => some (Char.ofNat 8)
  | 'f' => some (Char.ofNat 12)
  | 'v' => some (Char.ofNat 11)
  | _ => none

/-- Split at the first space: models s.find(" ") followed by slicing.
Returns the part before the space and, when a space exists, the part
after it. -/
def breakAtSpace : List Char → List Char × Option (List Char)
  | [] => ([], none)
  | c :: rest =>
    if c = ' ' then ([], some rest)
    else
      let p := breakAtSpace rest
      (c :: p.1, p.2)

/-- The character loop of _parse_c_quoted, starting after the opening
quote, with the accumulated result reversed.  The octal case is unrolled
over the (at most two) continuation digits so that the recursion stays
structural; it consumes exactly the digits Python's inner for loop takes,
and fails (none) exactly when int(octal, 8) raises, i.e. when the first
digit after the backslash is 8 or 9. -/
def parseCQuotedLoop : List Char → List Char → Option (List Char × List Char)
  | [], acc => some (acc.reverse, [])
  | '\\' :: c :: rest, acc =>
    match cEscape c with
    | some e => parseCQuotedLoop rest (e :: acc)
    | none =>
      if c.isDigit then
        match rest with
        | d1 :: d2 :: rest2 =>
          if isOctDigit d1 then
            if isOctDigit d2 then
              match octValue [c, d1, d2] with
              | some v => parseCQuotedLoop rest2 (Char.ofNat v :: acc)
              | none => none
            else
              match octValue [c, d1] with
              | some v => parseCQuotedLoop (d2 :: rest2) (Char.ofNat v :: acc)
              | none => none
          else
            match octValue [c] with
            | some v => parseCQuotedLoop (d1 :: d2 :: rest2) (Char.ofNat v :: acc)
            | none => none
        | [d1] =>
          if isOctDigit d1 then
            match octValue [c, d1] with
            | some v => parseCQuotedLoop [] (Char.ofNat v :: acc)
            | none => none
          else
            match octValue [c] with
            | some v => parseCQuotedLoop [d1] (Char.ofNat v :: acc)
            | none => none
        | [] =>
          match octValue [c] with
          | some v => parseCQuotedLoop [] (Char.ofNat v :: acc)
          | none => none
      else
        parseCQuotedLoop rest (c :: acc)
  | '"' :: rest, acc => some (acc.reverse, rest)
  | c :: rest, acc => parseCQuotedLoop rest (c :: acc)

/-- _parse_c_quoted from git.py: parse a C-style quoted string, returning
(unquoted content, remainder); none models a raised ValueError. -/
def parseCQuoted (s : List Char) : Option (List Char × List Char) :=
  match s with
  | '"' :: rest => parseCQuotedLoop rest []
  | _ =>
    match breakAtSpace s with
    | (_, none) => some (s, [])
    | (a, some b) => some (a, b)

/-- Strip a path prefix such as a/ or b/ when present. -/
def stripPathStart (pre : List Char) (p : List Char) : List Char :=
  if startsWith pre p then p.drop pre.length else p

/-- Python str.find for a pattern, returning the first index at which the
pattern occurs. -/
def findSub (pat : List Char) : List Char → Option Nat
  | [] => if List.isPrefixOf pat ([] : List Char) then some 0 else none
  | l@(_ :: rest) =>
    if List.isPrefixOf pat l then some 0
    else (findSub pat rest).map (· + 1)

/-- _parse_diff_git_header from git.py. -/
def parseDiffGitHeader (line : List Char) : Option (List Char × List Char) :=
  let rest := line.drop ("diff --git ".data.length)
  match rest with
  | '"' :: _ =>
    match parseCQuoted rest with
    | none => none
    | some (oldRaw, remainder) =>
      let oldPath := stripPathStart "a/".data oldRaw
      let rem2 := remainder.dropWhile Char.isWhitespace
      let newRaw? :=
        match rem2 with
        | '"' :: _ =>
          match parseCQuoted rem2 with
          | none => none
          | some (n, _) => some n
        | _ => some rem2
      match newRaw? with
      | none => none
      | some newRaw => some (oldPath, stripPathStart "b/".data newRaw)
  | _ =>
    if startsWith "a/".data rest then
      match findSub " b/".data rest with
      | some idx => some ((rest.take idx).drop 2, rest.drop (idx + 3))
      | none => some (rest, rest)
    else
      some (rest, rest)

/-- _extract_path from git.py: outer none models a raised ValueError, the
inner none is the /dev/null case. -/
def extractPath (raw : List Char) (pre : List Char) : Option (Option (List Char)) :=
  if raw = "/dev/null".data then some none
  else
    match raw with
    | '"' :: _ =>
      match parseCQuoted raw with
      | none => none
      | some (unq, _) => some (some (stripPathStart pre unq))
    | _ => some (some (stripPathStart pre raw))

/-- Digits of \d+ at the front of the list, with the remainder. -/
def spanDigits (l : List Char) : List Char × List Char :=
  (l.takeWhile Char.isDigit, l.dropWhile Char.isDigit)

/-- Numeric value of a decimal digit string, as Python int(). -/
def digitsToNat (l : List Char) : Nat := l.foldl (fun a c => a * 10 + digitVal c) 0

/-- Drop a literal from the front of the list, failing when absent. -/
def dropLit (pat : List Char) (l : List Char) : Option (List Char) :=
  if startsWith pat l then some (l.drop pat.length) else none

/-- HUNK_HEADER_RE of git.py together with _parse_hunk_header: match
@@ -a[,b] +c[,d] @@ at the start of the line, counts defaulting to 1. -/
def parseHunkHeader (line : List Char) : Option DiffHunk :=
  match dropLit "@@ -".data line with
  | none => none
  | some r1 =>
    let p1 := spanDigits r1
    if p1.1 = [] then none
    else
      let step2 : Option (Option (List Char) × List Char) :=
        match p1.2 with
        | ',' :: rr =>
          let p2 := spanDigits rr
          if p2.1 = [] then none else some (some p2.1, p2.2)
        | _ => some (none, p1.2)
      match step2 with
      | none => none
      | some (oc, r3) =>
        match dropLit " +".data r3 with
        | none => none
        | some r4 =>
          let p3 := spanDigits r4
          if p3.1 = [] then none
          else
            let step4 : Option (Option (List Char) × List Char) :=
              match p3.2 with
              | ',' :: rr =>
                let p4 := spanDigits rr
                if p4.1 = [] then none else some (some p4.1, p4.2)
              | _ => some (none, p3.2)
            match step4 with
            | none => none
            | some (nc, r6) =>
              match dropLit " @@".data r6 with
              | none => none
              | some _ =>
                some { old_start := (digitsToNat p1.1 : Int),
                       old_count := ((oc.map digitsToNat).getD 1 : Int),
                       new_start := (digitsToNat p3.1 : Int),
                       new_count := ((nc.map digitsToNat).getD 1 : Int), lines := [] }

/-- _apply_metadata_line from git.py; none models a raised ValueError
(possible through the quoted-path branches of _extract_path). -/
def applyMetadataLine (line : List Char) (f : DiffFile) : Option DiffFile :=
  if startsWith "new file mode".data line then some { f with is_new_file := true }
  else if startsWith "deleted file mode".data line then some { f with is_deleted := true }
  else if startsWith "old mode ".data line || startsWith "new mode ".data line then
    some { f with mode_changed := true }
  else if startsWith "rename from ".data line then
    some { f with old_path := line.drop ("rename from ".data.length), is_renamed := true }
  else if startsWith "rename to ".data line then
    some { f with new_path := line.drop ("rename to ".data.length), is_renamed := true }
  else if startsWith "Binary files".data line then some { f with is_binary := true }
  else if startsWith "--- ".data line then
    match extractPath (line.drop 4) "a/".data with
    | none => none
    | some none => some f
    | some (some p) => some { f with old_path := p }
  else if startsWith "+++ ".data line then
    match extractPath (line.drop 4) "b/".data with
    | none => none
    | some none => some f
    | some (some p) => some { f with new_path := p }
  else some f

/-- Replace the last element of a list, as mutating lst[-1] does. -/
def modifyLast (g : α → α) : List α → List α
  | [] => []
  | [a] => [g a]
  | a :: b :: rest => a :: modifyLast g (b :: rest)

/-- Append a (tag, text) line edit to the currently open hunk, which is the
last hunk of the current file. -/
def appendLineToLastHunk (f : DiffFile) (tag : Char) (text : List Char) : DiffFile :=
  { f with hunks := modifyLast (fun h => { h with lines := h.lines ++ [(tag, text)] }) f.hunks }

/-- One non-header, non-edit line of the parse loop: the no-newline marker,
a hunk header, or a metadata line.  Returns the updated file and whether a
hunk is now open. -/
def applyNonEditLine (line : List Char) (f : DiffFile) (inHunk : Bool) :
    Option (DiffFile × Bool) :=
  if startsWith "\\".data line then some (f, inHunk)
  else
    match parseHunkHeader line with
    | some h => some ({ f with hunks := f.hunks ++ [h] }, true)
    | none =>
      match applyMetadataLine line f with
      | none => none
      | some f2 => some (f2, inHunk)

/-- The line loop of parse_diff: files already flushed, the file being
built, and whether its last hunk is open (current_hunk is not None). -/
def parseDiffLines : List (List Char) → List DiffFile → Option DiffFile → Bool →
    Option (List DiffFile)
  | [], files, cur, _ =>
    some (match cur with | some f => files ++ [f] | none => files)
  | line :: rest, files, cur, inHunk =>
    if startsWith "diff --git ".data line then
      match parseDiffGitHeader line with
      | none => none
      | some (op, np) =>
        let files2 := match cur with | some f => files ++ [f] | none => files
        parseDiffLines rest files2 (some { old_path := op, new_path := np }) false
    else
      match cur with
      | none => parseDiffLines rest files none inHunk
      | some f =>
        match line with
        | c :: body =>
          if inHunk && (c = ' ' || c = '+' || c = '-') then
            parseDiffLines rest files (some (appendLineToLastHunk f c body)) inHunk
          else
            match applyNonEditLine line f inHunk with
            | none => none
            | some (f2, ih2) => parseDiffLines rest files (some f2) ih2
        | [] =>
          match applyNonEditLine [] f inHunk with
          | none => none
          | some (f2, ih2) => parseDiffLines rest files (some f2) ih2

/-- Python diff_string.split("\n"): split on newline, keeping empty pieces. -/
def splitOnNewline : List Char → List (List Char)
  | [] => [[]]
  | c :: rest =>
    if c = '\n' then [] :: splitOnNewline rest
    else
      match splitOnNewline rest with
      | [] => [[c]]
      | l :: ls => (c :: l) :: ls

/-- parse_diff from git.py.  none models an uncaught exception escaping the
call; some is the returned list.  (Python's str.strip also removes a few
whitespace characters beyond space, tab, CR and LF; the inputs below use
none of those.) -/
def parse_diff (diff_string : String) : Option (List DiffFile) :=
  let l := diff_string.data
  if l.all Char.isWhitespace then some []
  else parseDiffLines (splitOnNewline l) [] none false

/-- The single file change the sample diff of claim C7 should parse to. -/
def sampleDiffFile : DiffFile :=
  { old_path := "x.py".data, new_path := "x.py".data,
    hunks := [{ old_start := 1, old_count := 2, new_start := 1, new_count := 3,
                lines := [(' ', "x=1".data), ('+', "y=2".data)] }] }

/-! ### Scope context extraction (ast/scope.py) -/

/-- An enclosing code scope; mirrors the Scope dataclass of ast/scope.py.
Line numbers are 1-indexed and inclusive. -/
structure Scope where
  type : String
  name : String
  start_line : Int
  end_line : Int
deriving DecidableEq, Repr

/-- Python list slicing l[a:b] for int indices: negative indices count from
the end, and both bounds clamp to the list. -/
def pySlice (l : List α) (a b : Int) : List α :=
  let n : Int := l.length
  let a2 := if a < 0 then max 0 (n + a) else min n a
  let b2 := if b < 0 then max 0 (n + b) else min n b
  (l.take b2.toNat).drop a2.toNat

/-- extract_scope_context from ast/scope.py: slice the scope's lines out of
the file, and unless the file is new or the scope fits in the limit, keep
only the first limit lines followed by a truncation marker. -/
def extract_scope_context (scope : Scope) (source_lines : List String)
    (limit : Int := 200) (is_new_file : Bool := false) : String :=
  let start_idx : Int := max 0 (scope.start_line - 1)
  let end_idx : Int := min (source_lines.length : Int) scope.end_line
  let scope_lines := pySlice source_lines start_idx end_idx
  let total : Int := scope_lines.length
  if is_new_file || total ≤ limit then
    String.intercalate "\n" scope_lines
  else
    let truncated_count := total - limit
    let kept := pySlice scope_lines 0 limit
    String.intercalate "\n" kept ++ "\n... [truncated " ++ toString truncated_count ++ " lines]"

/-! ### Python scope resolution (ast/python.py)

A concrete-syntax-tree node as tree-sitter presents it: a node kind, a row
range (only rows matter to the resolver), the field name the node carries
in its parent (for child_by_field_name), its text, and its children.  Node
identity (Python object identity, used by the .parent attribute) is
modelled by a numeric id, unique within a tree.  The recursive walks carry
fuel bounding the recursion depth; every concrete tree below is far
shallower than the fuel supplied. -/

inductive TSNode where
  | mk (nid : Nat) (ty : String) (startRow : Nat) (endRow : Nat)
      (fieldName : Option String) (text : Option String) (children : List TSNode)

def TSNode.nid : TSNode → Nat
  | .mk i _ _ _ _ _ _ => i

def TSNode.ty : TSNode → String
  | .mk _ t _ _ _ _ _ => t

def TSNode.startRow : TSNode → Nat
  | .mk _ _ s _ _ _ _ => s

def TSNode.endRow : TSNode → Nat
  | .mk _ _ _ e _ _ _ => e

def TSNode.fieldName : TSNode → Option String
  | .mk _ _ _ _ f _ _ => f

def TSNode.text : TSNode → Option String
  | .mk _ _ _ _ _ t _ => t

def TSNode.children : TSNode → List TSNode
  | .mk _ _ _ _ _ _ c => c

/-- _SCOPE_NODE_TYPES of ast/python.py. -/
def isScopeNodeType (ty : String) : Bool :=
  ty = "function_definition" || ty = "class_definition"

/-- _NODE_TYPE_TO_SCOPE_TYPE of ast/python.py (a KeyError on other kinds is
modelled as none). -/
def scopeTypeOf (ty : String) : Option String :=
  if ty = "function_definition" then some "function"
  else if ty = "class_definition" then some "class"
  else none

/-- _definition_from_decorated: the first function/class child of a
decorated_definition node. -/
def definitionFromDecorated (node : TSNode) : Option TSNode :=
  node.children.find? (fun c => isScopeNodeType c.ty)

/-- _find_innermost_scope_node of ast/python.py: walk the children keeping
the best (innermost) scope node whose row range contains the target row.
For a decorated_definition the underlying definition is the candidate, and
the walk recurses into it only when the row lies inside the definition
itself (not merely on a decorator line). -/
def findInnermostScopeNode : Nat → TSNode → Int → Option TSNode
  | 0, _, _ => none
  | Nat.succ fuel, root, row =>
    root.children.foldl
      (fun best child =>
        if (child.startRow : Int) ≤ row ∧ row ≤ (child.endRow : Int) then
          if child.ty = "decorated_definition" then
            match definitionFromDecorated child with
            | some inner =>
              if (inner.startRow : Int) ≤ row ∧ row ≤ (inner.endRow : Int) then
                match findInnermostScopeNode fuel inner row with
                | some deeper => some deeper
                | none => some inner
              else some inner
            | none => best
          else if isScopeNodeType child.ty then
            match findInnermostScopeNode fuel child row with
            | some deeper => some deeper
            | none => some child
          else
            match findInnermostScopeNode fuel child row with
            | some deeper => some deeper
            | none => best
        else best)
      none

/-- The .parent attribute of a tree-sitter node, recovered by searching the
tree for the node whose children contain the given id. -/
def parentOf : Nat → TSNode → Nat → Option TSNode
  | 0, _, _ => none
  | Nat.succ fuel, node, tid =>
    if node.children.any (fun c => c.nid = tid) then some node
    else
      node.children.foldl
        (fun acc c =>
          match acc with
          | some p => some p
          | none => parentOf fuel c tid)
        none

/-- _get_node_name: the text of the child in field "name", or the sentinel. -/
def getNodeName (node : TSNode) : String :=
  match node.children.find? (fun c => c.fieldName = some "name") with
  | none => "<unknown>"
  | some n =>
    match n.text with
    | none => "<unknown>"
    | some t => t

/-- _get_effective_line_range: the 1-indexed line range of a scope node,
starting from the decorated_definition wrapper when the parent is one. -/
def getEffectiveLineRange (fuel : Nat) (root node : TSNode) : Nat × Nat :=
  let startRow :=
    match parentOf fuel root node.nid with
    | some p => if p.ty = "decorated_definition" then p.startRow else node.startRow
    | none => node.startRow
  (startRow + 1, node.endRow + 1)

/-- _node_to_scope of ast/python.py. -/
def nodeToScope (fuel : Nat) (root node : TSNode) : Option Scope :=
  match scopeTypeOf node.ty with
  | none => none
  | some st =>
    let r := getEffectiveLineRange fuel root node
    some { type := st, name := getNodeName node,
           start_line := (r.1 : Int), end_line := (r.2 : Int) }

/-- find_python_scope of ast/python.py: resolve the innermost scope
containing a 1-indexed line. -/
def find_python_scope (tree : TSNode) (line : Int) : Option Scope :=
  let row := line - 1
  match findInnermostScopeNode 32 tree row with
  | none => none
  | some node => nodeToScope 32 tree node

/-- The tree-sitter parse tree of the Python source
"@foo\ndef bar():\n    pass\n": a module holding one decorated_definition,
whose children are the decorator (row 0) and the function_definition
(rows 1-2) with name field "bar" and a block body containing pass. -/
def decoratedBarTree : TSNode :=
  .mk 0 "module" 0 3 none none
    [ .mk 1 "decorated_definition" 0 2 none none
        [ .mk 2 "decorator" 0 0 none none
            [ .mk 3 "@" 0 0 none (some "@") [],
              .mk 4 "identifier" 0 0 none (some "foo") [] ],
          .mk 5 "function_definition" 1 2 (some "definition") none
            [ .mk 6 "def" 1 1 none (some "def") [],
              .mk 7 "identifier" 1 1 (some "name") (some "bar") [],
              .mk 8 "parameters" 1 1 (some "parameters") none
                [ .mk 9 "(" 1 1 none (some "(") [],
                  .mk 10 ")" 1 1 none (some ")") [] ],
              .mk 11 ":" 1 1 none none [],
              .mk 12 "block" 2 2 (some "body") none
                [ .mk 13 "pass_statement" 2 2 none none
                    [ .mk 14 "pass" 2 2 none (some "pass") [] ] ] ] ] ]

/-! ### Reading file lines (read_file_lines of context.py)

File content is a byte list; the missing-file branch is driven by a flag
standing for path.is_file().  Strict UTF-8 decoding models bytes.decode
("utf-8"); on failure the code falls back to lossy decoding, modelled with
one replacement character per undecodable byte (Python's replacement
granularity can differ, which no theorem below depends on). -/

/-- A UTF-8 continuation byte 10xxxxxx. -/
def isContByte (b : Nat) : Bool := 128 ≤ b && b ≤ 191

/-- Decode one UTF-8 scalar from the front of the byte list, rejecting
overlong encodings, surrogates and values beyond U+10FFFF. -/
def decodeOne : List Nat → Option (Char × List Nat)
  | [] => none
  | b :: rest =>
    if b < 128 then some (Char.ofNat b, rest)
    else if 194 ≤ b && b ≤ 223 then
      match rest with
      | b2 :: r2 =>
        if isContByte b2 then some (Char.ofNat ((b - 192) * 64 + (b2 - 128)), r2) else none
      | [] => none
    else if 224 ≤ b && b ≤ 239 then
      match rest with
      | b2 :: b3 :: r3 =>
        let lo2 := if b = 224 then 160 else 128
        let hi2 := if b = 237 then 159 else 191
        if lo2 ≤ b2 && b2 ≤ hi2 && isContByte b3 then
          some (Char.ofNat ((b - 224) * 4096 + (b2 - 128) * 64 + (b3 - 128)), r3)
        else none
      | _ => none
    else if 240 ≤ b && b ≤ 244 then
      match rest with
      | b2 :: b3 :: b4 :: r4 =>
        let lo2 := if b = 240 then 144 else 128
        let hi2 := if b = 244 then 143 else 191
        if lo2 ≤ b2 && b2 ≤ hi2 && isContByte b3 && isContByte b4 then
          some (Char.ofNat
            ((b - 240) * 262144 + (b2 - 128) * 4096 + (b3 - 128) * 64 + (b4 - 128)), r4)
        else none
      | _ => none
    else none

/-- Strict decoding, with fuel (one unit per decoded character suffices
since every character consumes at least one byte). -/
def decodeUtf8StrictAux : Nat → List Nat → Option (List Char)
  | _, [] => some []
  | 0, _ :: _ => none
  | Nat.succ fuel, l =>
    match decodeOne l with
    | none => none
    | some (c, rest) => (decodeUtf8StrictAux fuel rest).map (fun t => c :: t)

/-- Lossy decoding: an undecodable position yields U+FFFD and skips one
byte. -/
def decodeUtf8LossyAux : Nat → List Nat → List Char
  | _, [] => []
  | 0, _ :: _ => []
  | Nat.succ fuel, l@(_ :: tail) =>
    match decodeOne l with
    | none => Char.ofNat 0xFFFD :: decodeUtf8LossyAux fuel tail
    | some (c, rest) => c :: decodeUtf8LossyAux fuel rest

/-- content.decode("utf-8") with fallback to errors="replace". -/
def pyDecodeUtf8 (content : List Nat) : List Char :=
  match decodeUtf8StrictAux content.length content with
  | some t => t
  | none => decodeUtf8LossyAux content.length content

/-- The line-break characters of Python str.splitlines. -/
def isLineBreakChar (c : Char) : Bool :=
  c = '\n' || c = '\r' || c.toNat = 11 || c.toNat = 12 || c.toNat = 28 ||
    c.toNat = 29 || c.toNat = 30 || c.toNat = 133 || c.toNat = 8232 || c.toNat = 8233

/-- The scan of str.splitlines, carrying the reversed current line; a \r\n
pair counts as a single break, and a trailing break adds no empty line. -/
def splitlinesAux : List Char → List Char → List (List Char)
  | [], acc => [acc.reverse]
  | '\r' :: '\n' :: rest, acc =>
    acc.reverse :: (match rest with | [] => [] | _ :: _ => splitlinesAux rest [])
  | c :: rest, acc =>
    if isLineBreakChar c then
      acc.reverse :: (match rest with | [] => [] | _ :: _ => splitlinesAux rest [])
    else splitlinesAux rest (c :: acc)

/-- Python str.splitlines. -/
def pySplitlines (l : List Char) : List (List Char) :=
  match l with
  | [] => []
  | _ :: _ => splitlinesAux l []

/-- The errors read_file_lines can raise: FileNotFoundError, or the
ContextError used for binary content — two distinct constructors. -/
inductive ReadError where
  | fileNotFound
  | binaryContent
deriving DecidableEq, Repr

/-- read_file_lines of context.py: missing file raises FileNotFoundError; a
NUL byte within the first 8192 bytes raises ContextError; otherwise the
bytes are decoded (strictly, falling back to lossy decoding) and split into
lines. -/
def read_file_lines (isFile : Bool) (content : List Nat) :
    Except ReadError (List (List Char)) :=
  if !isFile then .error .fileNotFound
  else if 0 ∈ content.take 8192 then .error .binaryContent
  else .ok (pySplitlines (pyDecodeUtf8 content))

/-! ### Object-level model of merge_regions (claim C10)

To talk about mutation and aliasing, merge_regions is replayed over an
explicit heap: a list of Region values indexed by address.  The argument
list holds addresses of Region objects; Region(...) constructor calls
append a fresh cell at the end of the heap; the in-place update of
merged[-1].end_line is a heap write at that region's address.  The value
computed is the same algorithm as merge_regions above, but allocation and
mutation are observable. -/

/-- The heap: Region objects indexed by address. -/
abbrev Heap := List Region

/-- Dereference an address (reads of valid addresses only occur below). -/
def heapGet (h : Heap) (i : Nat) : Region := h.getD i { start_line := 0, end_line := 0 }

/-- Allocate Region(r.start_line, r.end_line) for the region at address i:
the new object lives at address h.length. -/
def allocCopy (h : Heap) (i : Nat) : Heap :=
  h ++ [{ start_line := (heapGet h i).start_line, end_line := (heapGet h i).end_line }]

/-- Stable insertion of an address into a list sorted by the referenced
region's start_line. -/
def sortedInsertAddr (h : Heap) (i : Nat) : List Nat → List Nat
  | [] => [i]
  | j :: rest =>
    if (heapGet h i).start_line ≤ (heapGet h j).start_line then i :: j :: rest
    else j :: sortedInsertAddr h i rest

/-- sorted(regions, key=...) over addresses. -/
def sortAddrs (h : Heap) (l : List Nat) : List Nat := l.foldr (sortedInsertAddr h) []

/-- The fold of merge_regions over the heap: cur is the address of
merged[-1]; merging writes to that cell, otherwise a fresh copy of the
input region is allocated and becomes the new cur. -/
def mergeLoopH : Heap → Nat → List Nat → List Nat → Heap × List Nat
  | h, cur, done, [] => (h, done ++ [cur])
  | h, cur, done, i :: rest =>
    if (heapGet h i).start_line ≤ (heapGet h cur).end_line + 1 then
      mergeLoopH
        (h.set cur
          { heapGet h cur with
            end_line := max (heapGet h cur).end_line (heapGet h i).end_line })
        cur done rest
    else
      mergeLoopH (allocCopy h i) h.length (done ++ [cur]) rest

/-- The defensive-copy path for inputs of length ≤ 1: allocate a copy of
every argument region. -/
def allocCopies : Heap → List Nat → Heap × List Nat
  | h, [] => (h, [])
  | h, i :: rest =>
    let p := allocCopies (allocCopy h i) rest
    (p.1, h.length :: p.2)

/-- merge_regions over the heap. -/
def merge_regions_heap (h : Heap) (arg : List Nat) : Heap × List Nat :=
  if arg.length ≤ 1 then allocCopies h arg
  else
    match sortAddrs h arg with
    | [] => (h, [])
    | i :: rest => mergeLoopH (allocCopy h i) h.length [] rest

/-! ### Theorems -/

/-- Claim C2 counterexample: a hunk whose new_start exceeds the given
file_length produces an inverted region.  For new_start = 10, new_count = 1,
expansion = 0 and file_length = 5 the code returns Region(10, 5), whose
start_line is not ≤ its end_line. -/
theorem expand_hunk_inverted_counterexample :
    ¬ (expand_hunk { old_start := 1, old_count := 1, new_start := 10, new_count := 1 }
        0 (some 5)).start_line ≤
      (expand_hunk { old_start := 1, old_count := 1, new_start := 10, new_count := 1 }
        0 (some 5)).end_line := by
  decide

/-- Claim C2 (amended): for every hunk whose new_start is at least 1, every
expansion ≥ 0, and a file_length that is either absent or at least new_start,
the Region returned by expand_hunk satisfies start_line ≤ end_line.  (Without
the file_length condition the end is clamped below the start, and a hunk with
new_start = 0 and expansion = 0 yields Region(1, 0).) -/
theorem expand_hunk_start_le_end (hunk : DiffHunk) (expansion : Int)
    (file_length : Option Int) (he : 0 ≤ expansion) (hs : 1 ≤ hunk.new_start)
    (hf : ∀ n, file_length = some n → hunk.new_start ≤ n) :
    (expand_hunk hunk expansion file_length).start_line ≤
      (expand_hunk hunk expansion file_length).end_line := by
  unfold expand_hunk
  cases file_length with
  | none => simp only; omega
  | some n =>
    have := hf n rfl
    simp only
    omega

/-- Witness for the amended claim C2 at a concrete input. -/
theorem expand_hunk_start_le_end_witness :
    (0 : Int) ≤ 3 ∧ (1 : Int) ≤ 10 ∧
      (expand_hunk { old_start := 8, old_count := 3, new_start := 10, new_count := 5 }
          3 (some 100)).start_line ≤
        (expand_hunk { old_start := 8, old_count := 3, new_start := 10, new_count := 5 }
          3 (some 100)).end_line :=
  ⟨by decide, by decide,
    expand_hunk_start_le_end
      { old_start := 8, old_count := 3, new_start := 10, new_count := 5 }
      3 (some 100) (by decide) (by decide) (by intro n hn; cases hn; decide)⟩

/-- Claim C3 counterexample: a file change with both is_new_file and
is_deleted set, and no hunks, does not yield an empty region list: the
is_new_file branch runs first and returns the whole-file region. -/
theorem build_file_regions_new_and_deleted_counterexample :
    build_file_regions
      { old_path := [], new_path := [], hunks := [],
        is_new_file := true, is_deleted := true } 7 2 ≠ [] := by
  decide

/-- Claim C3 (amended): for every file change whose is_deleted flag or
is_binary flag is set, or whose hunk list is empty, and whose is_new_file
flag is NOT set, build_file_regions returns an empty region list for every
file_length and expansion.  (When is_new_file is set the code instead
returns the single whole-file region, regardless of the other flags.) -/
theorem build_file_regions_empty (diff_file : DiffFile) (file_length expansion : Int)
    (hflag : diff_file.is_deleted = true ∨ diff_file.is_binary = true ∨
      diff_file.hunks = [])
    (hnew : diff_file.is_new_file = false) :
    build_file_regions diff_file file_length expansion = [] := by
  unfold build_file_regions
  rcases hflag with h | h | h <;>
    simp [hnew, h, List.isEmpty_iff]

/-- Witness for the amended claim C3 at a concrete input. -/
theorem build_file_regions_empty_witness :
    build_file_regions
      { old_path := [], new_path := [], hunks := [], is_deleted := true } 50 3 = [] :=
  build_file_regions_empty
    { old_path := [], new_path := [], hunks := [], is_deleted := true } 50 3
    (Or.inl rfl) rfl

theorem Region.eta (r : Region) :
    ({ start_line := r.start_line, end_line := r.end_line } : Region) = r := rfl

theorem map_copy_eq (l : List Region) :
    l.map (fun r => ({ start_line := r.start_line, end_line := r.end_line } : Region)) = l := by
  induction l with
  | nil => rfl
  | cons a t ih => simp [Region.eta, ih]

theorem sortedInsert_perm (r : Region) (l : List Region) :
    List.Perm (sortedInsert r l) (r :: l) := by
  induction l with
  | nil => simp [sortedInsert]
  | cons s rest ih =>
    by_cases h : r.start_line ≤ s.start_line
    · simp [sortedInsert, h]
    · simp only [sortedInsert, h, if_false]
      exact (ih.cons s).trans (List.Perm.swap r s rest)

theorem sortByStart_perm (l : List Region) : List.Perm (sortByStart l) l := by
  induction l with
  | nil => simp [sortByStart]
  | cons a t ih =>
    have h1 : sortByStart (a :: t) = sortedInsert a (sortByStart t) := rfl
    rw [h1]
    exact (sortedInsert_perm a (sortByStart t)).trans (ih.cons a)

theorem sortedInsert_sorted (r : Region) (l : List Region)
    (hl : l.Pairwise startLE) : (sortedInsert r l).Pairwise startLE := by
  induction l with
  | nil => simp [sortedInsert, List.pairwise_singleton]
  | cons s rest ih =>
    rcases List.pairwise_cons.mp hl with ⟨hs, hrest⟩
    by_cases h : r.start_line ≤ s.start_line
    · simp only [sortedInsert, h, if_true]
      refine List.pairwise_cons.mpr ⟨?_, hl⟩
      intro b hb
      rcases List.mem_cons.mp hb with hb | hb
      · rw [hb]; exact h
      · exact h.trans (hs b hb)
    · simp only [sortedInsert, h, if_false]
      refine List.pairwise_cons.mpr ⟨?_, ih hrest⟩
      intro b hb
      have hb2 : b ∈ r :: rest := (sortedInsert_perm r rest).mem_iff.mp hb
      rcases List.mem_cons.mp hb2 with hb2 | hb2
      · rw [hb2]; exact le_of_not_le h
      · exact hs b hb2

theorem sortByStart_sorted (l : List Region) : (sortByStart l).Pairwise startLE := by
  induction l with
  | nil => exact List.Pairwise.nil
  | cons a t ih => exact sortedInsert_sorted a (sortByStart t) ih

theorem sortedInsert_of_le (r : Region) (l : List Region)
    (h : ∀ b ∈ l, r.start_line ≤ b.start_line) : sortedInsert r l = r :: l := by
  cases l with
  | nil => rfl
  | cons s rest => simp [sortedInsert, h s (by simp)]

theorem sortByStart_eq_of_sorted (l : List Region) (hl : l.Pairwise startLE) :
    sortByStart l = l := by
  induction l with
  | nil => rfl
  | cons a t ih =>
    rcases List.pairwise_cons.mp hl with ⟨ha, ht⟩
    have h1 : sortByStart (a :: t) = sortedInsert a (sortByStart t) := rfl
    rw [h1, ih ht, sortedInsert_of_le a t ha]

theorem mergeLoop_nil (cur : Region) (done : List Region) :
    mergeLoop cur done [] = done ++ [cur] := rfl

theorem mergeLoop_cons (cur : Region) (done : List Region) (r : Region)
    (rest : List Region) :
    mergeLoop cur done (r :: rest) =
      if r.start_line ≤ cur.end_line + 1 then
        mergeLoop { cur with end_line := max cur.end_line r.end_line } done rest
      else
        mergeLoop r (done ++ [cur]) rest := by
  rw [mergeLoop, Region.eta]

/-- Core invariant induction for mergeLoop: the result is sorted by
start_line and pairwise separated by a gap of at least one line.  None of
this needs the inputs to be well-formed (start ≤ end). -/
theorem mergeLoop_sorted_gap :
    ∀ (rest : List Region) (cur : Region) (done : List Region),
    rest.Pairwise startLE →
    (∀ r ∈ rest, cur.start_line ≤ r.start_line) →
    done.Pairwise startLE →
    (∀ a ∈ done, startLE a cur) →
    done.Pairwise gapGE1 →
    (∀ a ∈ done, gapGE1 a cur) →
    (mergeLoop cur done rest).Pairwise startLE ∧
      (mergeLoop cur done rest).Pairwise gapGE1 := by
  intro rest
  induction rest with
  | nil =>
    intro cur done _ _ hdP hdS hdG hdGc
    rw [mergeLoop_nil]
    constructor
    · exact List.pairwise_append.mpr ⟨hdP, List.pairwise_singleton _ _,
        fun a ha b hb => by rw [List.mem_singleton.mp hb]; exact hdS a ha⟩
    · exact List.pairwise_append.mpr ⟨hdG, List.pairwise_singleton _ _,
        fun a ha b hb => by rw [List.mem_singleton.mp hb]; exact hdGc a ha⟩
  | cons r rest ih =>
    intro cur done hrP hcur hdP hdS hdG hdGc
    rcases List.pairwise_cons.mp hrP with ⟨hr, hrestP⟩
    rw [mergeLoop_cons]
    by_cases h : r.start_line ≤ cur.end_line + 1
    · rw [if_pos h]
      exact ih { cur with end_line := max cur.end_line r.end_line } done hrestP
        (fun s hs => hcur s (List.mem_cons_of_mem r hs)) hdP hdS hdG hdGc
    · rw [if_neg h]
      have hgap : gapGE1 cur r := by
        unfold gapGE1; omega
      refine ih r (done ++ [cur]) hrestP hr
        (List.pairwise_append.mpr ⟨hdP, List.pairwise_singleton _ _,
          fun a ha b hb => by rw [List.mem_singleton.mp hb]; exact hdS a ha⟩)
        ?_
        (List.pairwise_append.mpr ⟨hdG, List.pairwise_singleton _ _,
          fun a ha b hb => by rw [List.mem_singleton.mp hb]; exact hdGc a ha⟩)
        ?_
      · intro a ha
        rcases List.mem_append.mp ha with ha | ha
        · exact (hdS a ha).trans (hcur r (List.mem_cons_self r rest))
        · rw [List.mem_singleton.mp ha]
          exact hcur r (List.mem_cons_self r rest)
      · intro a ha
        rcases List.mem_append.mp ha with ha | ha
        · have := hdGc a ha
          have := hcur r (List.mem_cons_self r rest)
          unfold gapGE1 at *; omega
        · rw [List.mem_singleton.mp ha]
          exact hgap

/-- Every region produced by mergeLoop is well-formed when the inputs are. -/
theorem mergeLoop_se :
    ∀ (rest : List Region) (cur : Region) (done : List Region),
    (∀ r ∈ rest, r.start_line ≤ r.end_line) →
    cur.start_line ≤ cur.end_line →
    (∀ q ∈ done, q.start_line ≤ q.end_line) →
    ∀ q ∈ mergeLoop cur done rest, q.start_line ≤ q.end_line := by
  intro rest
  induction rest with
  | nil =>
    intro cur done _ hcur hdone q hq
    rw [mergeLoop_nil] at hq
    rcases List.mem_append.mp hq with hq | hq
    · exact hdone q hq
    · rw [List.mem_singleton.mp hq]; exact hcur
  | cons r rest ih =>
    intro cur done hrse hcur hdone q hq
    rw [mergeLoop_cons] at hq
    by_cases h : r.start_line ≤ cur.end_line + 1
    · rw [if_pos h] at hq
      refine ih _ done (fun s hs => hrse s (List.mem_cons_of_mem r hs)) ?_ hdone q hq
      simp only
      exact le_trans hcur (le_max_left _ _)
    · rw [if_neg h] at hq
      refine ih r (done ++ [cur]) (fun s hs => hrse s (List.mem_cons_of_mem r hs))
        (hrse r (List.mem_cons_self r rest)) ?_ q hq
      intro p hp
      rcases List.mem_append.mp hp with hp | hp
      · exact hdone p hp
      · rw [List.mem_singleton.mp hp]; exact hcur

/-- mergeLoop never loses coverage: every point inside a pending or
accumulated region is inside some result region. -/
theorem mergeLoop_cover :
    ∀ (rest : List Region) (cur : Region) (done : List Region),
    rest.Pairwise startLE →
    (∀ r ∈ rest, cur.start_line ≤ r.start_line) →
    ∀ x : Int, covOf (done ++ cur :: rest) x → covOf (mergeLoop cur done rest) x := by
  intro rest
  induction rest with
  | nil =>
    intro cur done _ _ x hx
    rw [mergeLoop_nil]
    exact hx
  | cons r rest ih =>
    intro cur done hrP hcur x hx
    rcases List.pairwise_cons.mp hrP with ⟨hr, hrestP⟩
    rw [mergeLoop_cons]
    by_cases h : r.start_line ≤ cur.end_line + 1
    · rw [if_pos h]
      refine ih { cur with end_line := max cur.end_line r.end_line } done hrestP
        (fun s hs => hcur s (List.mem_cons_of_mem r hs)) x ?_
      rcases hx with ⟨q, hq, hq1, hq2⟩
      rcases List.mem_append.mp hq with hq | hq
      · exact ⟨q, List.mem_append.mpr (Or.inl hq), hq1, hq2⟩
      · rcases List.mem_cons.mp hq with hq | hq
        · refine ⟨{ cur with end_line := max cur.end_line r.end_line },
            List.mem_append.mpr (Or.inr (List.mem_cons_self _ _)), ?_, ?_⟩
          · show cur.start_line ≤ x
            rw [hq] at hq1; exact hq1
          · show x ≤ max cur.end_line r.end_line
            rw [hq] at hq2; omega
        · rcases List.mem_cons.mp hq with hq | hq
          · refine ⟨{ cur with end_line := max cur.end_line r.end_line },
              List.mem_append.mpr (Or.inr (List.mem_cons_self _ _)), ?_, ?_⟩
            · show cur.start_line ≤ x
              have hcr := hcur r (List.mem_cons_self r rest)
              rw [hq] at hq1
              omega
            · show x ≤ max cur.end_line r.end_line
              rw [hq] at hq2
              omega
          · exact ⟨q, List.mem_append.mpr (Or.inr (List.mem_cons_of_mem _ hq)), hq1, hq2⟩
    · rw [if_neg h]
      refine ih r (done ++ [cur]) hrestP hr x ?_
      have hlist : (done ++ [cur]) ++ r :: rest = done ++ cur :: r :: rest := by
        simp
      rw [hlist]
      exact hx

/-- The output of merge_regions is always sorted ascending by start_line and
pairwise separated by at least one full line, for every input list. -/
theorem merge_regions_sorted_gap (R : List Region) :
    (merge_regions R).Pairwise startLE ∧ (merge_regions R).Pairwise gapGE1 := by
  unfold merge_regions
  by_cases hlen : R.length ≤ 1
  · rw [if_pos hlen, map_copy_eq]
    match R, hlen with
    | [], _ => exact ⟨List.Pairwise.nil, List.Pairwise.nil⟩
    | [r], _ => exact ⟨List.pairwise_singleton _ _, List.pairwise_singleton _ _⟩
  · rw [if_neg hlen]
    have hsorted := sortByStart_sorted R
    cases hS : sortByStart R with
    | nil => exact ⟨List.Pairwise.nil, List.Pairwise.nil⟩
    | cons s rest =>
      rw [hS] at hsorted
      rcases List.pairwise_cons.mp hsorted with ⟨hs, hrest⟩
      show (mergeLoop { start_line := s.start_line, end_line := s.end_line } [] rest).Pairwise
          startLE ∧
        (mergeLoop { start_line := s.start_line, end_line := s.end_line } [] rest).Pairwise gapGE1
      rw [Region.eta]
      exact mergeLoop_sorted_gap rest s [] hrest hs List.Pairwise.nil
        (by intro a ha; cases ha) List.Pairwise.nil (by intro a ha; cases ha)

/-- Claim C5: for every input list of well-formed regions, the output of
merge_regions is sorted ascending by start_line, pairwise separated by a gap
of at least one line (hence non-overlapping), consists of well-formed
regions, and covers every point covered by some input region. -/
theorem merge_regions_spec (R : List Region)
    (hse : ∀ r ∈ R, r.start_line ≤ r.end_line) :
    (merge_regions R).Pairwise startLE ∧
    (merge_regions R).Pairwise gapGE1 ∧
    (∀ q ∈ merge_regions R, q.start_line ≤ q.end_line) ∧
    ∀ r ∈ R, ∀ x : Int, r.start_line ≤ x → x ≤ r.end_line →
      covOf (merge_regions R) x := by
  obtain ⟨hP, hG⟩ := merge_regions_sorted_gap R
  refine ⟨hP, hG, ?_, ?_⟩
  · unfold merge_regions
    by_cases hlen : R.length ≤ 1
    · rw [if_pos hlen, map_copy_eq]
      exact hse
    · rw [if_neg hlen]
      have hsorted := sortByStart_sorted R
      have hperm := sortByStart_perm R
      cases hS : sortByStart R with
      | nil => intro q hq; cases hq
      | cons s rest =>
        rw [hS] at hsorted hperm
        rcases List.pairwise_cons.mp hsorted with ⟨_, hrest⟩
        show ∀ q ∈ mergeLoop { start_line := s.start_line, end_line := s.end_line } [] rest,
          q.start_line ≤ q.end_line
        rw [Region.eta]
        exact mergeLoop_se rest s []
          (fun q hq => hse q (hperm.mem_iff.mp (List.mem_cons_of_mem s hq)))
          (hse s (hperm.mem_iff.mp (List.mem_cons_self s rest)))
          (by intro q hq; cases hq)
  · intro r hr x hx1 hx2
    unfold merge_regions
    by_cases hlen : R.length ≤ 1
    · rw [if_pos hlen, map_copy_eq]
      exact ⟨r, hr, hx1, hx2⟩
    · rw [if_neg hlen]
      have hsorted := sortByStart_sorted R
      have hperm := sortByStart_perm R
      cases hS : sortByStart R with
      | nil =>
        exfalso
        rw [hS] at hperm
        have : r ∈ ([] : List Region) := hperm.symm.mem_iff.mp hr
        cases this
      | cons s rest =>
        rw [hS] at hsorted hperm
        rcases List.pairwise_cons.mp hsorted with ⟨hs, hrest⟩
        show covOf (mergeLoop { start_line := s.start_line, end_line := s.end_line } [] rest) x
        rw [Region.eta]
        refine mergeLoop_cover rest s [] hrest hs x ?_
        have : r ∈ s :: rest := hperm.symm.mem_iff.mp hr
        exact ⟨r, by simpa using this, hx1, hx2⟩

/-- Witness for claim C5 at a concrete input list. -/
theorem merge_regions_spec_witness :
    (∀ r ∈ [Region.mk 5 7, Region.mk 1 3, Region.mk 4 4],
        r.start_line ≤ r.end_line) ∧
    ((merge_regions [Region.mk 5 7, Region.mk 1 3, Region.mk 4 4]).Pairwise startLE ∧
    (merge_regions [Region.mk 5 7, Region.mk 1 3, Region.mk 4 4]).Pairwise gapGE1 ∧
    (∀ q ∈ merge_regions [Region.mk 5 7, Region.mk 1 3, Region.mk 4 4],
        q.start_line ≤ q.end_line) ∧
    ∀ r ∈ [Region.mk 5 7, Region.mk 1 3, Region.mk 4 4], ∀ x : Int,
      r.start_line ≤ x → x ≤ r.end_line →
      covOf (merge_regions [Region.mk 5 7, Region.mk 1 3, Region.mk 4 4]) x) :=
  ⟨by decide, merge_regions_spec [Region.mk 5 7, Region.mk 1 3, Region.mk 4 4] (by decide)⟩

/-- When consecutive regions already have gaps, the fold changes nothing. -/
theorem mergeLoop_of_chain :
    ∀ (rest : List Region) (cur : Region) (done : List Region),
    List.Chain' gapGE1 (cur :: rest) →
    mergeLoop cur done rest = done ++ cur :: rest := by
  intro rest
  induction rest with
  | nil => intro cur done _; rw [mergeLoop_nil]
  | cons r rest ih =>
    intro cur done hch
    have hgap : gapGE1 cur r := (List.chain'_cons.mp hch).1
    have htail : List.Chain' gapGE1 (r :: rest) := (List.chain'_cons.mp hch).2
    rw [mergeLoop_cons, if_neg (by unfold gapGE1 at hgap; omega), ih r (done ++ [cur]) htail]
    simp

/-- Claim C6: merge_regions is idempotent, for every region list (including
ill-formed regions): applying it twice gives exactly the same list of
start_line / end_line values as applying it once. -/
theorem merge_regions_idempotent (R : List Region) :
    merge_regions (merge_regions R) = merge_regions R := by
  obtain ⟨hP, hG⟩ := merge_regions_sorted_gap R
  match hO : merge_regions R with
  | [] => rfl
  | [q] => simp [merge_regions, Region.eta]
  | a :: b :: t =>
    rw [hO] at hP hG
    have hlen : ¬ (a :: b :: t).length ≤ 1 := by simp
    have hchain : List.Chain' gapGE1 (a :: b :: t) := hG.chain'
    unfold merge_regions
    rw [if_neg hlen, sortByStart_eq_of_sorted _ hP]
    show mergeLoop { start_line := a.start_line, end_line := a.end_line } [] (b :: t) =
      a :: b :: t
    rw [Region.eta, mergeLoop_of_chain (b :: t) a [] hchain]
    rfl

/-- Claim C1 (code bug): parse_diff does raise on some inputs.  A quoted
path containing the escape \8 reaches chr(int("8", 8)) in _parse_c_quoted,
and int("8", 8) raises ValueError, which propagates out of parse_diff.
The embedded parser returns none (= exception) on this input. -/
theorem parse_diff_raises_on_backslash_eight :
    parse_diff "diff --git \"a/\\8\" b/x.py\n" = none := by
  decide

/-- Claim C7: the sample diff parses to exactly one DiffFile for path x.py
with a single hunk (1,2) → (1,3) holding a context edit "x=1" and an added
edit "y=2", in that order (tags are the leading diff characters: a space
for context, a plus for add). -/
theorem parse_diff_sample :
    parse_diff "diff --git a/x.py b/x.py\n@@ -1,2 +1,3 @@\n x=1\n+y=2\n" =
      some [sampleDiffFile] ∧ sampleDiffFile.path = "x.py".data := by
  constructor <;> decide

/-- Claim C8: for a scope spanning exactly 300 lines lying inside the file,
extraction with limit 200 and is_new_file = false yields the scope's first
200 lines joined by newlines followed by one marker line stating that 100
lines were truncated — 201 output lines in all, truncated at the tail; and
with is_new_file = true it yields all 300 lines with no marker. -/
theorem extract_scope_context_truncates (scope : Scope) (source_lines : List String)
    (h1 : 1 ≤ scope.start_line)
    (h2 : scope.end_line = scope.start_line + 299)
    (h3 : scope.end_line ≤ source_lines.length) :
    (extract_scope_context scope source_lines 200 false =
        String.intercalate "\n"
          (((source_lines.drop (scope.start_line - 1).toNat).take 300).take 200) ++
          "\n... [truncated 100 lines]") ∧
    ((((source_lines.drop (scope.start_line - 1).toNat).take 300).take 200).length = 200) ∧
    (extract_scope_context scope source_lines 200 true =
        String.intercalate "\n" ((source_lines.drop (scope.start_line - 1).toNat).take 300)) ∧
    ((source_lines.drop (scope.start_line - 1).toNat).take 300).length = 300 := by
  have hn : (299 : Int) ≤ (source_lines.length : Int) := by omega
  have hslice :
      pySlice source_lines (max 0 (scope.start_line - 1))
          (min (source_lines.length : Int) scope.end_line) =
        (source_lines.drop (scope.start_line - 1).toNat).take 300 := by
    unfold pySlice
    dsimp only
    rw [if_neg (by omega), if_neg (by omega)]
    have hamin : min (source_lines.length : Int) (max 0 (scope.start_line - 1)) =
        scope.start_line - 1 := by omega
    have hbmin : min (source_lines.length : Int)
        (min (source_lines.length : Int) scope.end_line) = scope.end_line := by omega
    rw [hamin, hbmin, List.drop_take]
    congr 1
    omega
  have hlen : ((source_lines.drop (scope.start_line - 1).toNat).take 300).length = 300 := by
    rw [List.length_take, List.length_drop]
    omega
  have hkeptlen :
      (((source_lines.drop (scope.start_line - 1).toNat).take 300).take 200).length = 200 := by
    rw [List.length_take, hlen]
    omega
  refine ⟨?_, hkeptlen, ?_, hlen⟩
  · unfold extract_scope_context
    dsimp only
    rw [hslice, hlen]
    rw [if_neg (by norm_num)]
    have hkept :
        pySlice ((source_lines.drop (scope.start_line - 1).toNat).take 300) 0 200 =
          ((source_lines.drop (scope.start_line - 1).toNat).take 300).take 200 := by
      unfold pySlice
      dsimp only
      rw [hlen]
      norm_num
      rfl
    rw [hkept]
    norm_num
    rw [String.append_assoc, String.append_assoc]
    rfl
  · unfold extract_scope_context
    dsimp only
    rw [hslice]
    simp

/-- Witness for claim C8 at a concrete 300-line scope in a 300-line file. -/
theorem extract_scope_context_truncates_witness :
    (1 : Int) ≤ 1 ∧ (300 : Int) = 1 + 299 ∧
      (300 : Int) ≤ (List.replicate 300 "x").length ∧
    (extract_scope_context (Scope.mk "function" "f" 1 300) (List.replicate 300 "x")
          200 false =
        String.intercalate "\n"
          ((((List.replicate 300 "x").drop ((1 : Int) - 1).toNat).take 300).take 200) ++
          "\n... [truncated 100 lines]") ∧
    ((((List.replicate 300 "x").drop ((1 : Int) - 1).toNat).take 300).take 200).length = 200 ∧
    (extract_scope_context (Scope.mk "function" "f" 1 300) (List.replicate 300 "x")
          200 true =
        String.intercalate "\n"
          (((List.replicate 300 "x").drop ((1 : Int) - 1).toNat).take 300)) ∧
    (((List.replicate 300 "x").drop ((1 : Int) - 1).toNat).take 300).length = 300 := by
  refine ⟨by norm_num, by norm_num, by norm_num [List.length_replicate], ?_⟩
  exact extract_scope_context_truncates (Scope.mk "function" "f" 1 300)
    (List.replicate 300 "x") (by norm_num) (by norm_num)
    (by norm_num [List.length_replicate])

/-- Claim C4: on the source "@foo\ndef bar():\n    pass\n", resolving line 2
(the def line) returns Scope(function, "bar", 1, 3) with the start extended
to the decorator line, and resolving line 1 (the decorator line itself)
returns the same decorated function without recursing into its body. -/
theorem find_python_scope_decorated :
    find_python_scope decoratedBarTree 2 =
      some { type := "function", name := "bar", start_line := 1, end_line := 3 } ∧
    find_python_scope decoratedBarTree 1 =
      some { type := "function", name := "bar", start_line := 1, end_line := 3 } := by
  constructor <;> rfl

/-- Claim C9: for an existing file, read_file_lines raises the binary
content error (distinct from the file-not-found error) exactly when the
bytes contain a NUL within the first 8192 bytes; for all other byte
contents it returns decoded lines and raises nothing (lossy decoding makes
invalid UTF-8 non-fatal). -/
theorem read_file_lines_binary_iff (content : List Nat) :
    (read_file_lines true content = .error .binaryContent ↔ 0 ∈ content.take 8192) ∧
    (0 ∉ content.take 8192 → ∃ ls, read_file_lines true content = .ok ls) ∧
    ReadError.binaryContent ≠ ReadError.fileNotFound := by
  refine ⟨?_, ?_, by decide⟩
  · constructor
    · intro h
      by_contra hmem
      unfold read_file_lines at h
      rw [if_neg (by simp), if_neg hmem] at h
      cases h
    · intro hmem
      unfold read_file_lines
      rw [if_neg (by simp), if_pos hmem]
  · intro hmem
    refine ⟨pySplitlines (pyDecodeUtf8 content), ?_⟩
    unfold read_file_lines
    rw [if_neg (by simp), if_neg hmem]

/-- Closed instance of claim C9 at a concrete byte content. -/
theorem read_file_lines_binary_iff_witness :
    (read_file_lines true [104, 0, 105] = .error .binaryContent ↔
      0 ∈ ([104, 0, 105] : List Nat).take 8192) ∧
    (0 ∉ ([104, 0, 105] : List Nat).take 8192 →
      ∃ ls, read_file_lines true [104, 0, 105] = .ok ls) ∧
    ReadError.binaryContent ≠ ReadError.fileNotFound :=
  read_file_lines_binary_iff [104, 0, 105]

theorem take_set_of_le (l : List α) (i n : Nat) (a : α) (hn : n ≤ i) :
    (l.set i a).take n = l.take n := by
  induction l generalizing i n with
  | nil => simp
  | cons c t ih =>
    cases i with
    | zero =>
      have : n = 0 := Nat.le_zero.mp hn
      simp [this]
    | succ i =>
      cases n with
      | zero => simp
      | succ n =>
        simp only [List.set_cons_succ, List.take_succ_cons]
        rw [ih i n (Nat.le_of_succ_le_succ hn)]

theorem take_append_left (l l2 : List α) (n : Nat) (hn : n ≤ l.length) :
    (l ++ l2).take n = l.take n := by
  rw [List.take_append_eq_append_take]
  have : n - l.length = 0 := Nat.sub_eq_zero_of_le hn
  rw [this, List.take_zero, List.append_nil]

/-- Frame property of the heap fold: cells below n (in particular every
pre-existing object) are untouched, and every produced address is ≥ n. -/
theorem mergeLoopH_frame :
    ∀ (rest : List Nat) (h : Heap) (cur : Nat) (done : List Nat) (n : Nat),
    n ≤ h.length → n ≤ cur → (∀ a ∈ done, n ≤ a) →
    (mergeLoopH h cur done rest).1.take n = h.take n ∧
    ∀ a ∈ (mergeLoopH h cur done rest).2, n ≤ a := by
  intro rest
  induction rest with
  | nil =>
    intro h cur done n _ hcur hdone
    refine ⟨rfl, ?_⟩
    intro a ha
    rcases List.mem_append.mp ha with ha | ha
    · exact hdone a ha
    · rw [List.mem_singleton.mp ha]; exact hcur
  | cons i rest ih =>
    intro h cur done n hn hcur hdone
    rw [mergeLoopH]
    by_cases hc : (heapGet h i).start_line ≤ (heapGet h cur).end_line + 1
    · rw [if_pos hc]
      have hlen : n ≤ (h.set cur
          { heapGet h cur with
            end_line := max (heapGet h cur).end_line (heapGet h i).end_line }).length := by
        rw [List.length_set]; exact hn
      obtain ⟨h1, h2⟩ := ih _ cur done n hlen hcur hdone
      refine ⟨?_, h2⟩
      rw [h1, take_set_of_le _ _ _ _ hcur]
    · rw [if_neg hc]
      have hlen : n ≤ (allocCopy h i).length := by
        unfold allocCopy
        rw [List.length_append]
        omega
      have hdone2 : ∀ a ∈ done ++ [cur], n ≤ a := by
        intro a ha
        rcases List.mem_append.mp ha with ha | ha
        · exact hdone a ha
        · rw [List.mem_singleton.mp ha]; exact hcur
      obtain ⟨h1, h2⟩ := ih (allocCopy h i) h.length (done ++ [cur]) n hlen hn hdone2
      refine ⟨?_, h2⟩
      rw [h1]
      unfold allocCopy
      exact take_append_left _ _ _ hn

/-- Frame property of the defensive-copy path. -/
theorem allocCopies_frame :
    ∀ (arg : List Nat) (h : Heap) (n : Nat), n ≤ h.length →
    (allocCopies h arg).1.take n = h.take n ∧
    ∀ a ∈ (allocCopies h arg).2, n ≤ a := by
  intro arg
  induction arg with
  | nil =>
    intro h n _
    exact ⟨rfl, by intro a ha; cases ha⟩
  | cons i rest ih =>
    intro h n hn
    rw [allocCopies]
    have hlen : n ≤ (allocCopy h i).length := by
      unfold allocCopy
      rw [List.length_append]
      omega
    obtain ⟨h1, h2⟩ := ih (allocCopy h i) n hlen
    constructor
    · dsimp only
      rw [h1]
      unfold allocCopy
      exact take_append_left _ _ _ hn
    · intro a ha
      dsimp only at ha
      rcases List.mem_cons.mp ha with ha | ha
      · rw [ha]; exact hn
      · exact h2 a ha

/-- Claim C10: merge_regions never mutates its argument and returns only
fresh objects.  In the heap model: after the call the whole pre-existing
heap — in particular every Region object of the argument list — is
unchanged, and every output address is a fresh allocation (≥ the old heap
size), so no output object is an object of the input list; this covers the
empty and single-element defensive-copy path as well. -/
theorem merge_regions_heap_frame (h : Heap) (arg : List Nat)
    (hvalid : ∀ i ∈ arg, i < h.length) :
    (merge_regions_heap h arg).1.take h.length = h ∧
    (∀ a ∈ (merge_regions_heap h arg).2, h.length ≤ a) ∧
    (∀ a ∈ (merge_regions_heap h arg).2, a ∉ arg) := by
  have main : (merge_regions_heap h arg).1.take h.length = h ∧
      ∀ a ∈ (merge_regions_heap h arg).2, h.length ≤ a := by
    unfold merge_regions_heap
    by_cases hsmall : arg.length ≤ 1
    · rw [if_pos hsmall]
      obtain ⟨h1, h2⟩ := allocCopies_frame arg h h.length (le_refl _)
      exact ⟨by rw [h1, List.take_length], h2⟩
    · rw [if_neg hsmall]
      cases hS : sortAddrs h arg with
      | nil => exact ⟨List.take_length _, by intro a ha; cases ha⟩
      | cons i rest =>
        have hlen : h.length ≤ (allocCopy h i).length := by
          unfold allocCopy
          rw [List.length_append]
          omega
        obtain ⟨h1, h2⟩ := mergeLoopH_frame rest (allocCopy h i) h.length [] h.length
          hlen (le_refl _) (by intro a ha; cases ha)
        refine ⟨?_, h2⟩
        rw [h1]
        unfold allocCopy
        rw [take_append_left _ _ _ (le_refl _), List.take_length]
  refine ⟨main.1, main.2, ?_⟩
  intro a ha hmem
  have := main.2 a ha
  have := hvalid a hmem
  omega

/-- Witness for claim C10 at a concrete heap and argument list. -/
theorem merge_regions_heap_frame_witness :
    (∀ i ∈ [0, 1], i < ([Region.mk 1 2, Region.mk 5 9] : Heap).length) ∧
    ((merge_regions_heap [Region.mk 1 2, Region.mk 5 9] [0, 1]).1.take 2 =
        [Region.mk 1 2, Region.mk 5 9] ∧
      (∀ a ∈ (merge_regions_heap [Region.mk 1 2, Region.mk 5 9] [0, 1]).2, 2 ≤ a) ∧
      (∀ a ∈ (merge_regions_heap [Region.mk 1 2, Region.mk 5 9] [0, 1]).2, a ∉ [0, 1])) :=
  ⟨by decide, merge_regions_heap_frame [Region.mk 1 2, Region.mk 5 9] [0, 1] (by decide)⟩

end Diffguard
